import Mathlib

/-!
Verification of the git repository discovery and sync-status engine of DevFlow
(`cmd/git_list.go`).  The Go functions `discoverGitRepos`, `evaluateRepo` and the
aggregation logic of `gitListCmd` are embedded shallowly:

* the go-git substrate (open a repository, resolve HEAD, read branch-tracking
  configuration, resolve references, enumerate commit parents, worktree status,
  stat files under `.git`) is modelled by the `Repository` structure; a scan root
  is a function `String → Option Repository` (`git.PlainOpen` failing = `none`);
* commit hashes are modelled as `Nat`;
* `filepath.Rel` is an external collaborator and is passed in as a function
  `String → String → Option String` (`none` = the error case);
* the filesystem tree walked by `discoverGitRepos` is the inductive `FSNode`,
  with paths as segment lists (`List String`);
* the concurrent worker pool delivers exactly the multiset of non-nil
  `evaluateRepo` results in a nondeterministic completion order; completion
  order is therefore modelled as an arbitrary permutation of the discovered
  path list.
-/

/-! ## String helpers (ASCII-level models of `strings.HasPrefix`, `SplitN`, go-git `Short()`) -/

/-- `strings.HasPrefix s pre` (byte-wise; modelled on the character list). -/
def strStartsWith (s pre : String) : Bool :=
  pre.data.isPrefixOf s.data

/-- Drop the first `n` characters of a string. -/
def strDrop (s : String) (n : Nat) : String :=
  ⟨s.data.drop n⟩

/-- go-git `plumbing.ReferenceName.IsBranch()`: refs under `refs/heads/`. -/
def isBranchRef (s : String) : Bool :=
  strStartsWith s "refs/heads/"

/-- go-git `plumbing.ReferenceName.Short()`: strip the standard ref prefixes
(branch, remote, tag, generic `refs/`). -/
def refShort (s : String) : String :=
  if strStartsWith s "refs/heads/" then strDrop s 11
  else if strStartsWith s "refs/remotes/" then strDrop s 13
  else if strStartsWith s "refs/tags/" then strDrop s 10
  else if strStartsWith s "refs/" then strDrop s 5
  else s

/-- `strings.SplitN(s, "/", 2)`: the part before the first `/` and the rest.
When `s` contains no slash Go returns a one-element slice (the code never hits
that case because the split argument is always built as `remote ++ "/" ++ branch`);
we return `(s, "")` there. -/
def splitFirstSlash (s : String) : String × String :=
  match s.data.findIdx? (· == '/') with
  | some i => (⟨s.data.take i⟩, ⟨s.data.drop (i + 1)⟩)
  | none => (s, "")

/-- `plumbing.NewRemoteReferenceName(remote, name)` applied to the two halves of
the `remote/branch` upstream string, as in `evaluateRepo`. -/
def upstreamRemoteRefName (upstream : String) : String :=
  let parts := splitFirstSlash upstream
  "refs/remotes/" ++ parts.1 ++ "/" ++ parts.2

/-! ## Data model -/

/-- Result of `os.Stat` on a path that exists: directory flag and size. -/
structure FileInfo where
  isDir : Bool
  size : Nat
  deriving DecidableEq, Repr

/-- A resolved git reference: full name and target hash. -/
structure Ref where
  name : String
  hash : Nat
  deriving DecidableEq, Repr

/-- Result of `worktree.Status()`: whether the worktree is clean. -/
structure WtStatus where
  isClean : Bool
  deriving DecidableEq, Repr

/-- A worktree; `status = none` models `wt.Status()` returning an error. -/
structure Worktree where
  status : Option WtStatus
  deriving DecidableEq, Repr

/-- One entry of `cfg.Branches`: remote name and merge ref (full name). -/
structure BranchConfig where
  remote : String
  merge : String
  deriving DecidableEq, Repr

/-- The go-git capabilities `evaluateRepo` consumes from an opened repository.
`head = none` models `r.Head()` failing; `worktree = none` models
`r.Worktree()` failing; `reference` resolves a full reference name to a hash;
`commit h` returns the parent hashes of commit `h` (`none` = `CommitObject`
error); `stashLog`/`stashRef` are the `os.Stat` results for
`.git/logs/refs/stash` and `.git/refs/stash`. -/
structure Repository where
  head : Option Ref
  worktree : Option Worktree
  branches : List (String × BranchConfig)
  reference : String → Option Nat
  commit : Nat → Option (List Nat)
  stashLog : Option FileInfo
  stashRef : Option FileInfo

/-- `gitRepoStatus` from `cmd/git_list.go`. -/
structure gitRepoStatus where
  Path : String
  Branch : String
  State : String
  Dirty : Bool
  Stashed : Bool
  Ahead : Int
  Behind : Int
  Upstream : String
  deriving DecidableEq, Repr

/-! ## Pieces of `evaluateRepo` -/

/-- `relativePath(root, path)` from `cmd/git_list.go`; `rel` is `filepath.Rel`. -/
def relativePath (rel : String → String → Option String) (root path : String) : String :=
  match rel root path with
  | none => "."
  | some s => if s = "." then "." else s

/-- The `branchName` computation: `"DETACHED"` unless HEAD resolves to a branch ref. -/
def branchNameOf (head : Option Ref) : String :=
  match head with
  | some br => if isBranchRef br.name then refShort br.name else "DETACHED"
  | none => "DETACHED"

/-- The upstream lookup over `cfg.Branches` (a Go map, so names are unique):
the entry for the current branch with nonempty remote and merge ref yields
`"<remote>/<merge short name>"`. -/
def upstreamOf (branches : List (String × BranchConfig)) (branchName : String) : String :=
  match branches.find? (fun p => p.1 == branchName && p.2.remote != "" && p.2.merge != "") with
  | some p => p.2.remote ++ "/" ++ refShort p.2.merge
  | none => ""

/-- The `upstream` computation of `evaluateRepo` (only branch HEADs have one). -/
def upstreamFor (branches : List (String × BranchConfig)) (head : Option Ref) : String :=
  match head with
  | some br => if isBranchRef br.name then upstreamOf branches (branchNameOf head) else ""
  | none => ""

/-- The `Dirty` computation: false unless the worktree is available and its
status call succeeds, in which case it is `!status.IsClean()`. -/
def dirtyOf (wt : Option Worktree) : Bool :=
  match wt with
  | some w =>
    match w.status with
    | some s => !s.isClean
    | none => false
  | none => false

/-- The `Stashed` computation: a non-directory `.git/logs/refs/stash` or a
non-directory `.git/refs/stash` exists (pure `os.Stat` probes). -/
def stashedOf (r : Repository) : Bool :=
  (match r.stashLog with | some fi => !fi.isDir | none => false) ||
  (match r.stashRef with | some fi => !fi.isDir | none => false)

/-- `branchRef.Hash()`; the `none` case is unreachable where this is used
(a nonempty upstream forces a branch HEAD), mirroring the Go nil-deref hazard
with a default. -/
def headHash (head : Option Ref) : Nat :=
  match head with
  | some br => br.hash
  | none => 0

/-- The bounded breadth-first ancestor traversal of `evaluateRepo`: pop the
queue head; while the visited set is smaller than `maxC`, insert unseen hashes
and enqueue their parents (a failed `CommitObject` contributes no parents). -/
def bfsAncestors (g : Nat → Option (List Nat)) (maxC : Nat) :
    List Nat → Finset Nat → Finset Nat
  | [], anc => anc
  | h :: queue, anc =>
    if hc : anc.card < maxC then
      if hm : h ∈ anc then
        bfsAncestors g maxC queue anc
      else
        bfsAncestors g maxC (queue ++ (g h).getD []) (insert h anc)
    else anc
  termination_by queue anc => (maxC - anc.card, queue.length)
  decreasing_by
  · exact Prod.Lex.right _ (Nat.lt_succ_self _)
  · exact Prod.Lex.left _ _ (by rw [Finset.card_insert_of_not_mem hm]; omega)

/-- The ahead/behind counting block of `evaluateRepo`: bounded ancestor sets,
set differences, the tip-hash double-count corrections, and the clamp to 0. -/
def syncCounts (g : Nat → Option (List Nat)) (localHash remoteHash : Nat) : Int × Int :=
  let maxCommits := 2000
  let localAnc := bfsAncestors g maxCommits [localHash] ∅
  let remoteAnc := bfsAncestors g maxCommits [remoteHash] ∅
  let ahead0 : Int := ((localAnc \ remoteAnc).card : Int)
  let behind0 : Int := ((remoteAnc \ localAnc).card : Int)
  let ahead1 := if localHash ∈ remoteAnc then ahead0 - 1 else ahead0
  let behind1 := if remoteHash ∈ localAnc then behind0 - 1 else behind0
  (if ahead1 < 0 then 0 else ahead1, if behind1 < 0 then 0 else behind1)

/-- The final state classification of `evaluateRepo`. -/
def syncState (localHash remoteHash : Nat) (ahead behind : Int) : String :=
  if localHash = remoteHash then "up-to-date"
  else if ahead > 0 ∧ behind = 0 then "ahead"
  else if behind > 0 ∧ ahead = 0 then "behind"
  else "diverged"

/-- `evaluateRepo(root, repoPath, doFetch)` from `cmd/git_list.go`.
`world` is `git.PlainOpen` (`none` = open error); `rel` is `filepath.Rel`.
The optional fetch is best-effort with all errors discarded, so the
`Repository` snapshot already reflects any effect it had; `doFetch` has no
further observable consequence here. -/
def evaluateRepo (world : String → Option Repository)
    (rel : String → String → Option String)
    (root repoPath : String) (doFetch : Bool) : Option gitRepoStatus :=
  match world repoPath with
  | none => none
  | some r =>
    let branchName := branchNameOf r.head
    let upstream := upstreamFor r.branches r.head
    let dirty := dirtyOf r.worktree
    let stashed := stashedOf r
    let base : gitRepoStatus :=
      { Path := relativePath rel root repoPath, Branch := branchName, State := ""
        Dirty := dirty, Stashed := stashed, Ahead := 0, Behind := 0, Upstream := upstream }
    if upstream = "" ∧ branchName = "DETACHED" then
      some { base with State := "detached" }
    else if upstream = "" then
      some { base with State := "no-upstream" }
    else
      let localHash := headHash r.head
      match r.reference (upstreamRemoteRefName upstream) with
      | none =>
        -- remote-tracking ref missing: classified no-upstream (Upstream field kept)
        some { base with State := "no-upstream" }
      | some remoteHash =>
        let c := syncCounts r.commit localHash remoteHash
        some { base with
          State := syncState localHash remoteHash c.1 c.2
          Ahead := c.1, Behind := c.2 }

/-- The multiset of records the worker pool hands to the sink: every non-nil
`evaluateRepo` result, one per discovered path (`gitListCmd`'s worker body). -/
def scanResults (world : String → Option Repository)
    (rel : String → String → Option String)
    (root : String) (repos : List String) (doFetch : Bool) : List gitRepoStatus :=
  repos.filterMap (fun p => evaluateRepo world rel root p doFetch)

/-- Aggregate mode: collect all results and sort by `Path`
(`sort.Slice(slices, func(i, j) { return slices[i].Path < slices[j].Path })`). -/
def aggregateResults (world : String → Option Repository)
    (rel : String → String → Option String)
    (root : String) (repos : List String) (doFetch : Bool) : List gitRepoStatus :=
  (scanResults world rel root repos doFetch).mergeSort (fun a b => a.Path ≤ b.Path)

/-! ## Commit-graph reachability and BFS correctness -/

def parentsOf (g : Nat → Option (List Nat)) (h : Nat) : List Nat := (g h).getD []

def Reaches (g : Nat → Option (List Nat)) (a b : Nat) : Prop :=
  Relation.ReflTransGen (fun x y => y ∈ parentsOf g x) a b

def closedUnder (g : Nat → Option (List Nat)) (S : Finset Nat) : Prop :=
  ∀ x ∈ S, ∀ p ∈ parentsOf g x, p ∈ S

theorem bfsAncestors_subset (g : Nat → Option (List Nat)) (m : Nat) :
    ∀ (q : List Nat) (anc : Finset Nat), anc ⊆ bfsAncestors g m q anc := by
  intro q anc
  induction q, anc using bfsAncestors.induct g m with
  | case1 anc => simp [bfsAncestors]
  | case2 h q anc hc hm ih => rw [bfsAncestors]; simp [hc, hm]; exact ih
  | case3 h q anc hc hm ih =>
    rw [bfsAncestors]; simp [hc, hm]
    exact fun x hx => ih (Finset.mem_insert_of_mem hx)
  | case4 h q anc hc => rw [bfsAncestors]; simp [hc]

theorem bfsAncestors_card_le (g : Nat → Option (List Nat)) (m : Nat) :
    ∀ (q : List Nat) (anc : Finset Nat), anc.card ≤ m → (bfsAncestors g m q anc).card ≤ m := by
  intro q anc
  induction q, anc using bfsAncestors.induct g m with
  | case1 anc => simp [bfsAncestors]
  | case2 h q anc hc hm ih => rw [bfsAncestors]; simp [hc, hm]; exact fun _ => ih (le_of_lt hc)
  | case3 h q anc hc hm ih =>
    rw [bfsAncestors]; simp [hc, hm]
    intro _
    exact ih (by rw [Finset.card_insert_of_not_mem hm]; omega)
  | case4 h q anc hc => rw [bfsAncestors]; simp [hc]

theorem bfsAncestors_sound (g : Nat → Option (List Nat)) (m : Nat) (S : Finset Nat)
    (hS : closedUnder g S) :
    ∀ (q : List Nat) (anc : Finset Nat), (∀ x ∈ q, x ∈ S) → anc ⊆ S →
      bfsAncestors g m q anc ⊆ S := by
  intro q anc
  induction q, anc using bfsAncestors.induct g m with
  | case1 anc => intro _ ha; rw [bfsAncestors]; exact ha
  | case2 h q anc hc hm ih =>
    intro hq ha
    rw [bfsAncestors]; simp only [hc, hm, dite_true, dif_pos, if_pos]
    exact ih (fun x hx => hq x (List.mem_cons_of_mem _ hx)) ha
  | case3 h q anc hc hm ih =>
    intro hq ha
    rw [bfsAncestors]; simp only [hc, hm, dite_true, dif_pos, if_neg, not_false_iff]
    have hhS : h ∈ S := hq h (List.mem_cons_self _ _)
    apply ih
    · intro x hx
      rcases List.mem_append.mp hx with hx | hx
      · exact hq x (List.mem_cons_of_mem _ hx)
      · exact hS h hhS x (by simpa [parentsOf] using hx)
    · intro x hx
      rcases Finset.mem_insert.mp hx with rfl | hx
      · exact hhS
      · exact ha hx
  | case4 h q anc hc => intro _ ha; rw [bfsAncestors]; simp only [hc, dif_neg]; exact ha

/-- Main invariant: if `S` is parent-closed with `S.card ≤ m`, and the current
queue/visited pair stays inside `S` with every visited node's parents either
visited or queued, then the final visited set swallows the queue and is itself
parent-closed. -/
theorem bfsAncestors_invariant (g : Nat → Option (List Nat)) (m : Nat) (S : Finset Nat)
    (hS : closedUnder g S) (hcard : S.card ≤ m) :
    ∀ (q : List Nat) (anc : Finset Nat), (∀ x ∈ q, x ∈ S) → anc ⊆ S →
      (∀ x ∈ anc, ∀ p ∈ parentsOf g x, p ∈ anc ∨ p ∈ q) →
      (∀ x ∈ q, x ∈ bfsAncestors g m q anc) ∧
        closedUnder g (bfsAncestors g m q anc) := by
  intro q anc
  induction q, anc using bfsAncestors.induct g m with
  | case1 anc =>
    intro _ _ hfr
    rw [bfsAncestors]
    refine ⟨by simp, ?_⟩
    intro x hx p hp
    rcases hfr x hx p hp with h | h
    · exact h
    · simp at h
  | case2 h q anc hc hm ih =>
    intro hq ha hfr
    rw [bfsAncestors]; simp only [hc, hm, dite_true, dif_pos]
    have hq' : ∀ x ∈ q, x ∈ S := fun x hx => hq x (List.mem_cons_of_mem _ hx)
    have hfr' : ∀ x ∈ anc, ∀ p ∈ parentsOf g x, p ∈ anc ∨ p ∈ q := by
      intro x hx p hp
      rcases hfr x hx p hp with h1 | h1
      · exact Or.inl h1
      · rcases List.mem_cons.mp h1 with rfl | h1
        · exact Or.inl hm
        · exact Or.inr h1
    have ih' := ih hq' ha hfr'
    refine ⟨?_, ih'.2⟩
    intro x hx
    rcases List.mem_cons.mp hx with rfl | hx
    · exact bfsAncestors_subset g m q anc hm
    · exact ih'.1 x hx
  | case3 h q anc hc hm ih =>
    intro hq ha hfr
    rw [bfsAncestors]; simp only [hc, hm, dite_true, dif_pos]
    have hhS : h ∈ S := hq h (List.mem_cons_self _ _)
    have hq' : ∀ x ∈ q ++ (g h).getD [], x ∈ S := by
      intro x hx
      rcases List.mem_append.mp hx with hx | hx
      · exact hq x (List.mem_cons_of_mem _ hx)
      · exact hS h hhS x hx
    have ha' : insert h anc ⊆ S := by
      intro x hx
      rcases Finset.mem_insert.mp hx with rfl | hx
      · exact hhS
      · exact ha hx
    have hfr' : ∀ x ∈ insert h anc, ∀ p ∈ parentsOf g x, p ∈ insert h anc ∨ p ∈ q ++ (g h).getD [] := by
      intro x hx p hp
      rcases Finset.mem_insert.mp hx with rfl | hx
      · exact Or.inr (List.mem_append_right _ hp)
      · rcases hfr x hx p hp with h1 | h1
        · exact Or.inl (Finset.mem_insert_of_mem h1)
        · rcases List.mem_cons.mp h1 with rfl | h1
          · exact Or.inl (Finset.mem_insert_self _ _)
          · exact Or.inr (List.mem_append_left _ h1)
    have ih' := ih hq' ha' hfr'
    refine ⟨?_, ih'.2⟩
    intro x hx
    rcases List.mem_cons.mp hx with rfl | hx
    · exact bfsAncestors_subset g m _ _ (Finset.mem_insert_self _ _)
    · exact ih'.1 x (List.mem_append_left _ hx)
  | case4 h q anc hc =>
    intro hq ha _
    rw [bfsAncestors]; simp only [hc, dif_neg]
    have hanc : anc = S := by
      apply Finset.eq_of_subset_of_card_le ha
      omega
    subst hanc
    exact ⟨fun x hx => hq x hx, hS⟩

/-- Bounded BFS computes the full ancestor set whenever that set fits within
the bound. -/
theorem bfsAncestors_eq_reachSet (g : Nat → Option (List Nat)) (m start : Nat)
    (S : Finset Nat) (hstart : start ∈ S) (hclosed : closedUnder g S)
    (hcard : S.card ≤ m) (hreach : ∀ x ∈ S, Reaches g start x) :
    bfsAncestors g m [start] ∅ = S := by
  have hsub : bfsAncestors g m [start] ∅ ⊆ S :=
    bfsAncestors_sound g m S hclosed [start] ∅ (by simpa using hstart) (Finset.empty_subset S)
  have hinv := bfsAncestors_invariant g m S hclosed hcard [start] ∅
    (by simpa using hstart) (Finset.empty_subset S) (by simp)
  have hstartR : start ∈ bfsAncestors g m [start] ∅ := hinv.1 start (by simp)
  have hclR : closedUnder g (bfsAncestors g m [start] ∅) := hinv.2
  apply Finset.Subset.antisymm hsub
  have hreachR : ∀ x, Reaches g start x → x ∈ bfsAncestors g m [start] ∅ := by
    intro x hr
    induction hr with
    | refl => exact hstartR
    | tail _ hstep ih => exact hclR _ ih _ hstep
  exact fun x hx => hreachR x (hreach x hx)

theorem mem_bfsAncestors_head (g : Nat → Option (List Nat)) (m h : Nat)
    (q : List Nat) (anc : Finset Nat) (hc : anc.card < m) :
    h ∈ bfsAncestors g m (h :: q) anc := by
  rw [bfsAncestors]
  simp only [hc, dite_true, dif_pos]
  by_cases hm : h ∈ anc
  · simp only [hm, dite_true, dif_pos]
    exact bfsAncestors_subset g m q anc hm
  · simp only [hm, dite_false, dif_neg, not_false_iff]
    exact bfsAncestors_subset g m _ _ (Finset.mem_insert_self _ _)

/-! ## Evaluation lemmas -/

/-- Unfolding of `evaluateRepo` in the resolvable-upstream case. -/
theorem evaluateRepo_resolved (world : String → Option Repository)
    (rel : String → String → Option String) (root p : String) (f : Bool)
    (r : Repository) (rh : Nat)
    (hw : world p = some r)
    (hu : upstreamFor r.branches r.head ≠ "")
    (hr : r.reference (upstreamRemoteRefName (upstreamFor r.branches r.head)) = some rh) :
    evaluateRepo world rel root p f = some
      { Path := relativePath rel root p
        Branch := branchNameOf r.head
        State := syncState (headHash r.head) rh
          (syncCounts r.commit (headHash r.head) rh).1
          (syncCounts r.commit (headHash r.head) rh).2
        Dirty := dirtyOf r.worktree
        Stashed := stashedOf r
        Ahead := (syncCounts r.commit (headHash r.head) rh).1
        Behind := (syncCounts r.commit (headHash r.head) rh).2
        Upstream := upstreamFor r.branches r.head } := by
  unfold evaluateRepo
  rw [hw]
  dsimp only
  rw [if_neg (fun h => hu h.1), if_neg hu, hr]

/-- When the two tips coincide the corrected ahead/behind counts are both 0:
both ancestor sets are literally the same BFS result, the raw differences are
empty, and the tip-correction then clamps −1 back to 0. -/
theorem syncCounts_self (g : Nat → Option (List Nat)) (h : Nat) :
    syncCounts g h h = (0, 0) := by
  unfold syncCounts
  have hmem : h ∈ bfsAncestors g 2000 [h] ∅ :=
    mem_bfsAncestors_head g 2000 h [] ∅ (by simp)
  simp [hmem]

/-- The clamped counts always lie in `[0, 2000]`. -/
theorem syncCounts_bounds (g : Nat → Option (List Nat)) (a b : Nat) :
    0 ≤ (syncCounts g a b).1 ∧ (syncCounts g a b).1 ≤ 2000 ∧
      0 ≤ (syncCounts g a b).2 ∧ (syncCounts g a b).2 ≤ 2000 := by
  unfold syncCounts
  dsimp only
  have hA : (bfsAncestors g 2000 [a] ∅).card ≤ 2000 :=
    bfsAncestors_card_le g 2000 [a] ∅ (by simp)
  have hB : (bfsAncestors g 2000 [b] ∅).card ≤ 2000 :=
    bfsAncestors_card_le g 2000 [b] ∅ (by simp)
  have hA' : ((bfsAncestors g 2000 [a] ∅) \ (bfsAncestors g 2000 [b] ∅)).card ≤ 2000 :=
    le_trans (Finset.card_le_card (Finset.sdiff_subset)) hA
  have hB' : ((bfsAncestors g 2000 [b] ∅) \ (bfsAncestors g 2000 [a] ∅)).card ≤ 2000 :=
    le_trans (Finset.card_le_card (Finset.sdiff_subset)) hB
  refine ⟨?_, ?_, ?_, ?_⟩ <;> split <;> (try split) <;> omega

/-- `syncCounts` when both full ancestor sets fit under the cap, the remote's
is contained in the local's, and the local tip is not reachable from the
remote tip: the raw local-minus-remote count survives untouched and the
behind side clamps to 0. -/
theorem syncCounts_of_reachSets (g : Nat → Option (List Nat)) (lh rh : Nat)
    (Sl Sr : Finset Nat)
    (hSl1 : lh ∈ Sl) (hSl2 : closedUnder g Sl) (hSl3 : ∀ x ∈ Sl, Reaches g lh x)
    (hSr1 : rh ∈ Sr) (hSr2 : closedUnder g Sr) (hSr3 : ∀ x ∈ Sr, Reaches g rh x)
    (hsub : Sr ⊆ Sl) (hlh : lh ∉ Sr) (hcap : Sl.card ≤ 2000) :
    syncCounts g lh rh = (((Sl \ Sr).card : Int), 0) := by
  have hL : bfsAncestors g 2000 [lh] ∅ = Sl :=
    bfsAncestors_eq_reachSet g 2000 lh Sl hSl1 hSl2 hcap hSl3
  have hR : bfsAncestors g 2000 [rh] ∅ = Sr :=
    bfsAncestors_eq_reachSet g 2000 rh Sr hSr1 hSr2
      (le_trans (Finset.card_le_card hsub) hcap) hSr3
  unfold syncCounts
  dsimp only
  rw [hL, hR]
  rw [if_neg hlh, if_pos (hsub hSr1)]
  rw [Finset.sdiff_eq_empty_iff_subset.mpr hsub]
  simp only [Finset.card_empty, Nat.cast_zero, zero_sub]
  rw [if_neg (by omega), if_pos (by norm_num)]

/-- Every successful evaluation produces a record whose `Branch`, `Dirty`,
`Stashed`, `Upstream` and `Path` fields come from the fixed per-repository
computations, whatever the classification branch taken. -/
theorem evaluateRepo_shape (world : String → Option Repository)
    (rel : String → String → Option String) (root p : String) (f : Bool)
    (r : Repository) (hw : world p = some r) :
    ∃ st, evaluateRepo world rel root p f = some st ∧
      st.Branch = branchNameOf r.head ∧ st.Dirty = dirtyOf r.worktree ∧
      st.Stashed = stashedOf r ∧ st.Upstream = upstreamFor r.branches r.head ∧
      st.Path = relativePath rel root p := by
  unfold evaluateRepo
  rw [hw]
  dsimp only
  split
  · exact ⟨_, rfl, rfl, rfl, rfl, rfl, rfl⟩
  · split
    · exact ⟨_, rfl, rfl, rfl, rfl, rfl, rfl⟩
    · split
      · exact ⟨_, rfl, rfl, rfl, rfl, rfl, rfl⟩
      · exact ⟨_, rfl, rfl, rfl, rfl, rfl, rfl⟩

/-! ## Claim C1 -/

/-- C1: for every repository whose current branch has a resolvable upstream
remote-tracking ref, `evaluateRepo` sets the state by exactly the rule
up-to-date / ahead / behind / diverged over the returned counts and the two
tip hashes, and equal tip hashes force both returned counts to 0. -/
theorem claim_C1 (world : String → Option Repository)
    (rel : String → String → Option String) (root p : String) (f : Bool)
    (r : Repository) (br : Ref) (rh : Nat)
    (hw : world p = some r) (hh : r.head = some br)
    (hu : upstreamFor r.branches r.head ≠ "")
    (hr : r.reference (upstreamRemoteRefName (upstreamFor r.branches r.head)) = some rh) :
    ∃ st, evaluateRepo world rel root p f = some st ∧
      (br.hash = rh → st.Ahead = 0 ∧ st.Behind = 0) ∧
      st.State = (if br.hash = rh then "up-to-date"
        else if st.Ahead > 0 ∧ st.Behind = 0 then "ahead"
        else if st.Behind > 0 ∧ st.Ahead = 0 then "behind"
        else "diverged") := by
  refine ⟨_, evaluateRepo_resolved world rel root p f r rh hw hu hr, ?_, ?_⟩
  · intro heq
    have hlh : headHash r.head = br.hash := by rw [hh]; rfl
    rw [hlh, heq] at *
    simp [syncCounts_self]
  · have hlh : headHash r.head = br.hash := by rw [hh]; rfl
    rw [hlh]
    rfl

/-- Witness for C1 at a one-commit repository whose upstream resolves to the
same tip hash. -/
def relW : String → String → Option String := fun _ p => some p

def repoC1 : Repository :=
  { head := some ⟨"refs/heads/main", 5⟩
    worktree := none
    branches := [("main", ⟨"origin", "refs/heads/main"⟩)]
    reference := fun s => if s = "refs/remotes/origin/main" then some 5 else none
    commit := fun n => if n = 5 then some [] else none
    stashLog := none
    stashRef := none }

def worldC1 : String → Option Repository := fun p => if p = "a" then some repoC1 else none

theorem claim_C1_witness :
    ∃ st, evaluateRepo worldC1 relW "r" "a" false = some st ∧
      ((⟨"refs/heads/main", 5⟩ : Ref).hash = 5 → st.Ahead = 0 ∧ st.Behind = 0) ∧
      st.State = (if (⟨"refs/heads/main", 5⟩ : Ref).hash = 5 then "up-to-date"
        else if st.Ahead > 0 ∧ st.Behind = 0 then "ahead"
        else if st.Behind > 0 ∧ st.Ahead = 0 then "behind"
        else "diverged") :=
  claim_C1 worldC1 relW "r" "a" false repoC1 ⟨"refs/heads/main", 5⟩ 5
    (by rfl) (by rfl) (by decide) (by decide)

/-! ## Claim C3 -/

/-- C3: a repository strictly ahead of its upstream by `k` commits and with no
divergence (the upstream's ancestors are among the local ancestors, the local
tip is not an upstream ancestor, and the whole local ancestor set fits under
the 2000-commit cap) evaluates to `ahead = k`, `behind = 0`, `state = ahead`. -/
theorem claim_C3 (world : String → Option Repository)
    (rel : String → String → Option String) (root p : String) (f : Bool)
    (r : Repository) (br : Ref) (rh k : Nat) (Sl Sr : Finset Nat)
    (hw : world p = some r) (hh : r.head = some br)
    (hu : upstreamFor r.branches r.head ≠ "")
    (hr : r.reference (upstreamRemoteRefName (upstreamFor r.branches r.head)) = some rh)
    (hSl1 : br.hash ∈ Sl) (hSl2 : closedUnder r.commit Sl)
    (hSl3 : ∀ x ∈ Sl, Reaches r.commit br.hash x)
    (hSr1 : rh ∈ Sr) (hSr2 : closedUnder r.commit Sr)
    (hSr3 : ∀ x ∈ Sr, Reaches r.commit rh x)
    (hsub : Sr ⊆ Sl) (hlh : br.hash ∉ Sr)
    (hk : (Sl \ Sr).card = k) (hk1 : 0 < k) (hcap : Sl.card ≤ 2000) :
    ∃ st, evaluateRepo world rel root p f = some st ∧
      st.Ahead = (k : Int) ∧ st.Behind = 0 ∧ st.State = "ahead" := by
  refine ⟨_, evaluateRepo_resolved world rel root p f r rh hw hu hr, ?_⟩
  have hlhh : headHash r.head = br.hash := by rw [hh]; rfl
  have hcounts : syncCounts r.commit (headHash r.head) rh = (((Sl \ Sr).card : Int), 0) := by
    rw [hlhh]
    exact syncCounts_of_reachSets r.commit br.hash rh Sl Sr hSl1 hSl2 hSl3 hSr1 hSr2 hSr3
      hsub hlh hcap
  have hne : headHash r.head ≠ rh := by
    rw [hlhh]
    intro heq
    exact hlh (heq ▸ hSr1)
  refine ⟨by rw [hcounts, hk], by rw [hcounts], ?_⟩
  show syncState (headHash r.head) rh _ _ = "ahead"
  rw [hcounts, hk]
  unfold syncState
  rw [if_neg hne, if_pos (by constructor <;> omega)]

def repoC3 : Repository :=
  { head := some ⟨"refs/heads/main", 5⟩
    worktree := none
    branches := [("main", ⟨"origin", "refs/heads/main"⟩)]
    reference := fun s => if s = "refs/remotes/origin/main" then some 7 else none
    commit := fun n => if n = 5 then some [7] else if n = 7 then some [] else none
    stashLog := none
    stashRef := none }

def worldC3 : String → Option Repository := fun p => if p = "a" then some repoC3 else none

theorem claim_C3_witness :
    ∃ st, evaluateRepo worldC3 relW "r" "a" false = some st ∧
      st.Ahead = ((1 : Nat) : Int) ∧ st.Behind = 0 ∧ st.State = "ahead" :=
  claim_C3 worldC3 relW "r" "a" false repoC3 ⟨"refs/heads/main", 5⟩ 7 1 {5, 7} {7}
    (by rfl) (by rfl) (by decide) (by decide)
    (by decide) (by unfold closedUnder; decide)
    (by
      intro x hx
      fin_cases hx
      · exact Relation.ReflTransGen.refl
      · exact Relation.ReflTransGen.single (by decide))
    (by decide) (by unfold closedUnder; decide)
    (by
      intro x hx
      fin_cases hx
      exact Relation.ReflTransGen.refl)
    (by decide) (by decide) (by decide) (by decide) (by decide)

/-! ## Claim C6 -/

/-- C6: every returned record has `0 ≤ ahead ≤ 2000` and `0 ≤ behind ≤ 2000`;
the classification branches that skip the traversal return 0, and the bounded
traversal caps both ancestor sets at 2000 visited commits. -/
theorem claim_C6 (world : String → Option Repository)
    (rel : String → String → Option String) (root p : String) (f : Bool)
    (st : gitRepoStatus) (he : evaluateRepo world rel root p f = some st) :
    0 ≤ st.Ahead ∧ st.Ahead ≤ 2000 ∧ 0 ≤ st.Behind ∧ st.Behind ≤ 2000 := by
  unfold evaluateRepo at he
  cases hw : world p with
  | none => rw [hw] at he; exact absurd he (by simp)
  | some r =>
    rw [hw] at he
    dsimp only at he
    split at he
    · obtain rfl := (Option.some.inj he).symm
      refine ⟨le_refl 0, by norm_num, le_refl 0, by norm_num⟩
    · split at he
      · obtain rfl := (Option.some.inj he).symm
        refine ⟨le_refl 0, by norm_num, le_refl 0, by norm_num⟩
      · split at he
        · obtain rfl := (Option.some.inj he).symm
          refine ⟨le_refl 0, by norm_num, le_refl 0, by norm_num⟩
        · obtain rfl := (Option.some.inj he).symm
          exact syncCounts_bounds r.commit _ _

def repoC6 : Repository :=
  { head := none, worktree := none, branches := []
    reference := fun _ => none, commit := fun _ => none
    stashLog := none, stashRef := none }

def worldC6 : String → Option Repository := fun p => if p = "a" then some repoC6 else none

def stC6 : gitRepoStatus :=
  { Path := "a", Branch := "DETACHED", State := "detached", Dirty := false
    Stashed := false, Ahead := 0, Behind := 0, Upstream := "" }

theorem claim_C6_witness :
    0 ≤ stC6.Ahead ∧ stC6.Ahead ≤ 2000 ∧ 0 ≤ stC6.Behind ∧ stC6.Behind ≤ 2000 :=
  claim_C6 worldC6 relW "r" "a" false stC6 (by rfl)

/-! ## Claim C10 -/

/-- C10: when the worktree is unavailable or its status computation fails, an
opened repository still evaluates to a full record, with `dirty = false`. -/
theorem claim_C10 (world : String → Option Repository)
    (rel : String → String → Option String) (root p : String) (f : Bool)
    (r : Repository) (hw : world p = some r)
    (hwt : r.worktree = none ∨ ∃ wt, r.worktree = some wt ∧ wt.status = none) :
    ∃ st, evaluateRepo world rel root p f = some st ∧ st.Dirty = false := by
  obtain ⟨st, hst, _, hd, _⟩ := evaluateRepo_shape world rel root p f r hw
  refine ⟨st, hst, ?_⟩
  rw [hd]
  rcases hwt with hn | ⟨wt, hs, hn⟩
  · rw [hn]; rfl
  · rw [hs]
    unfold dirtyOf
    dsimp only
    rw [hn]

def repoC10 : Repository :=
  { head := none, worktree := some ⟨none⟩, branches := []
    reference := fun _ => none, commit := fun _ => none
    stashLog := none, stashRef := none }

def worldC10 : String → Option Repository := fun p => if p = "a" then some repoC10 else none

theorem claim_C10_witness :
    ∃ st, evaluateRepo worldC10 relW "r" "a" false = some st ∧ st.Dirty = false :=
  claim_C10 worldC10 relW "r" "a" false repoC10 (by rfl)
    (Or.inr ⟨⟨none⟩, rfl, rfl⟩)

/-! ## Claim C2 -/

/-- The classification computed from the ancestor sets is never one of the
sentinel states. -/
theorem syncState_ne_sentinels (lh rh : Nat) (a b : Int) :
    syncState lh rh a b ≠ "detached" ∧ syncState lh rh a b ≠ "no-upstream" := by
  unfold syncState
  split
  · exact ⟨by decide, by decide⟩
  · split
    · exact ⟨by decide, by decide⟩
    · split
      · exact ⟨by decide, by decide⟩
      · exact ⟨by decide, by decide⟩

/-- Counterexample to C2 as stated: a branch with a configured upstream whose
remote-tracking ref does not resolve is classified `no-upstream` while the
`upstream` field keeps the configured (non-empty) value. -/
def repoC2 : Repository :=
  { head := some ⟨"refs/heads/main", 1⟩
    worktree := none
    branches := [("main", ⟨"origin", "refs/heads/main"⟩)]
    reference := fun _ => none
    commit := fun _ => none
    stashLog := none
    stashRef := none }

def worldC2 : String → Option Repository := fun p => if p = "a" then some repoC2 else none

def stC2 : gitRepoStatus :=
  { Path := "a", Branch := "main", State := "no-upstream", Dirty := false
    Stashed := false, Ahead := 0, Behind := 0, Upstream := "origin/main" }

theorem claim_C2_counterexample :
    evaluateRepo worldC2 relW "r" "a" false = some stC2 ∧
      stC2.State = "no-upstream" ∧ ¬ stC2.Upstream = "" := by
  refine ⟨by decide, by decide, by decide⟩

/-- C2 amended: `state = detached` still implies `branch = DETACHED`, but
`state = no-upstream` allows two sources: no configured upstream (then
`upstream = ""` and `branch ≠ DETACHED`), or a configured upstream whose
remote-tracking ref failed to resolve (then `upstream ≠ ""`). -/
theorem claim_C2_amended (world : String → Option Repository)
    (rel : String → String → Option String) (root p : String) (f : Bool)
    (r : Repository) (st : gitRepoStatus)
    (hw : world p = some r)
    (he : evaluateRepo world rel root p f = some st) :
    (st.State = "detached" → st.Branch = "DETACHED") ∧
    (st.State = "no-upstream" →
      (st.Upstream = "" ∧ st.Branch ≠ "DETACHED") ∨
      (st.Upstream ≠ "" ∧ r.reference (upstreamRemoteRefName st.Upstream) = none)) := by
  unfold evaluateRepo at he
  rw [hw] at he
  dsimp only at he
  split at he
  · next h1 =>
    obtain rfl := (Option.some.inj he).symm
    exact ⟨fun _ => h1.2, by intro hc; simp at hc⟩
  · next h1 =>
    split at he
    · next h2 =>
      obtain rfl := (Option.some.inj he).symm
      refine ⟨by intro hc; simp at hc, fun _ => Or.inl ⟨h2, ?_⟩⟩
      intro hb
      exact h1 ⟨h2, hb⟩
    · next h2 =>
      split at he
      · next hm =>
        obtain rfl := (Option.some.inj he).symm
        exact ⟨by intro hc; simp at hc, fun _ => Or.inr ⟨h2, hm⟩⟩
      · next rh hm =>
        obtain rfl := (Option.some.inj he).symm
        have hs := syncState_ne_sentinels (headHash r.head) rh
          (syncCounts r.commit (headHash r.head) rh).1
          (syncCounts r.commit (headHash r.head) rh).2
        exact ⟨fun hc => absurd hc hs.1, fun hc => absurd hc hs.2⟩

theorem claim_C2_amended_witness :
    (stC2.State = "detached" → stC2.Branch = "DETACHED") ∧
    (stC2.State = "no-upstream" →
      (stC2.Upstream = "" ∧ stC2.Branch ≠ "DETACHED") ∨
      (stC2.Upstream ≠ "" ∧ repoC2.reference (upstreamRemoteRefName stC2.Upstream) = none)) :=
  claim_C2_amended worldC2 relW "r" "a" false repoC2 stC2 (by rfl) (by decide)

/-! ## Claim C8 -/

/-- Modelled from the claim's words for comparison: the repository has a
NON-EMPTY stash reflog, or a `refs/stash` entry on disk. -/
def specStashedClaim (r : Repository) : Bool :=
  (match r.stashLog with | some fi => decide (0 < fi.size) | none => false) ||
  r.stashRef.isSome

/-- Counterexample to C8 as stated: an existing but empty (size 0) stash
reflog file with no `refs/stash` makes the code set `stashed = true` (it only
`stat`s the file), while the claim's condition is false. -/
def repoC8 : Repository :=
  { head := none
    worktree := none
    branches := []
    reference := fun _ => none
    commit := fun _ => none
    stashLog := some ⟨false, 0⟩
    stashRef := none }

def worldC8 : String → Option Repository := fun p => if p = "a" then some repoC8 else none

def stC8 : gitRepoStatus :=
  { Path := "a", Branch := "DETACHED", State := "detached", Dirty := false
    Stashed := true, Ahead := 0, Behind := 0, Upstream := "" }

theorem claim_C8_counterexample :
    evaluateRepo worldC8 relW "r" "a" false = some stC8 ∧
      stC8.Stashed = true ∧ specStashedClaim repoC8 = false :=
  ⟨by decide, by decide, by decide⟩

/-- C8 amended: `stashed` is true iff the stash reflog file exists as a
non-directory (regardless of its size) or `refs/stash` exists as a
non-directory — a pure filesystem (`os.Stat`) probe. -/
theorem claim_C8_amended (world : String → Option Repository)
    (rel : String → String → Option String) (root p : String) (f : Bool)
    (r : Repository) (st : gitRepoStatus)
    (hw : world p = some r)
    (he : evaluateRepo world rel root p f = some st) :
    st.Stashed = true ↔
      ((∃ fi, r.stashLog = some fi ∧ fi.isDir = false) ∨
       (∃ fi, r.stashRef = some fi ∧ fi.isDir = false)) := by
  obtain ⟨st', hst, _, _, hstash, _⟩ := evaluateRepo_shape world rel root p f r hw
  rw [hst] at he
  obtain rfl := Option.some.inj he
  rw [hstash]
  unfold stashedOf
  constructor
  · intro h
    rcases Bool.or_eq_true_iff.mp h with h | h
    · left
      cases hl : r.stashLog with
      | none => rw [hl] at h; simp at h
      | some fi =>
        rw [hl] at h
        exact ⟨fi, rfl, by simpa using h⟩
    · right
      cases hl : r.stashRef with
      | none => rw [hl] at h; simp at h
      | some fi =>
        rw [hl] at h
        exact ⟨fi, rfl, by simpa using h⟩
  · intro h
    rcases h with ⟨fi, hl, hd⟩ | ⟨fi, hl, hd⟩
    · rw [hl]
      simp [hd]
    · rw [hl]
      simp [hd]

theorem claim_C8_amended_witness :
    stC8.Stashed = true ↔
      ((∃ fi, repoC8.stashLog = some fi ∧ fi.isDir = false) ∨
       (∃ fi, repoC8.stashRef = some fi ∧ fi.isDir = false)) :=
  claim_C8_amended worldC8 relW "r" "a" false repoC8 stC8 (by rfl) (by decide)

/-! ## Claim C4 -/

/-- Dropping an element that maps to `none` does not change a `filterMap`. -/
theorem filterMap_eq_filterMap_filter_ne {α β : Type} [DecidableEq α]
    (f : α → Option β) (p : α) (hf : f p = none) :
    ∀ l : List α, l.filterMap f = (l.filter (fun q => q ≠ p)).filterMap f := by
  intro l
  induction l with
  | nil => rfl
  | cons a l ih =>
    by_cases ha : a = p
    · subst ha
      simp [List.filter_cons, List.filterMap_cons, hf, ih]
    · simp [List.filter_cons, List.filterMap_cons, ha, ih]

/-- C4: `evaluateRepo` returns `none` exactly when the path does not open as a
git repository, and a failing path contributes no record while leaving the
records of all other discovered repositories unchanged. -/
theorem claim_C4 (world : String → Option Repository)
    (rel : String → String → Option String) (root : String) (f : Bool)
    (p : String) (repos : List String) :
    (evaluateRepo world rel root p f = none ↔ world p = none) ∧
    (world p = none →
      scanResults world rel root repos f =
        scanResults world rel root (repos.filter (fun q => q ≠ p)) f) := by
  have hiff : evaluateRepo world rel root p f = none ↔ world p = none := by
    unfold evaluateRepo
    cases hw : world p with
    | none => simp
    | some r =>
      dsimp only
      constructor
      · intro h
        exfalso
        split at h
        · simp at h
        · split at h
          · simp at h
          · split at h
            · simp at h
            · simp at h
      · intro h
        simp at h
  refine ⟨hiff, ?_⟩
  intro hw
  exact filterMap_eq_filterMap_filter_ne _ p (hiff.mpr hw) repos

theorem claim_C4_witness :
    (evaluateRepo worldC6 relW "r" "b" false = none ↔ worldC6 "b" = none) ∧
    (worldC6 "b" = none →
      scanResults worldC6 relW "r" ["a", "b"] false =
        scanResults worldC6 relW "r" (["a", "b"].filter (fun q => q ≠ "b")) false) :=
  claim_C4 worldC6 relW "r" false "b" ["a", "b"]

/-! ## Claim C7 -/

/-- C7: whatever order the workers complete in (any permutation of the
discovered path list), aggregate mode returns one record per successfully
opened repository (a permutation of the per-path evaluation results) sorted in
nondecreasing lexicographic order of `Path`. -/
theorem claim_C7 (world : String → Option Repository)
    (rel : String → String → Option String) (root : String) (f : Bool)
    (repos order : List String) (h : order.Perm repos) :
    (aggregateResults world rel root order f).Perm (scanResults world rel root repos f) ∧
    (aggregateResults world rel root order f).Pairwise (fun a b => a.Path ≤ b.Path) := by
  constructor
  · exact (List.mergeSort_perm _ _).trans (h.filterMap _)
  · have hs := @List.sorted_mergeSort gitRepoStatus
      (fun a b : gitRepoStatus => a.Path ≤ b.Path)
      (fun a b c hab hbc => by
        simp only [decide_eq_true_eq] at *
        exact le_trans hab hbc)
      (fun a b => by
        simp only [Bool.or_eq_true, decide_eq_true_eq]
        exact le_total a.Path b.Path)
      (scanResults world rel root order f)
    exact hs.imp (fun hab => by simpa using hab)

theorem claim_C7_witness :
    (aggregateResults worldC6 relW "r" ["b", "a"] false).Perm
      (scanResults worldC6 relW "r" ["a", "b"] false) ∧
    (aggregateResults worldC6 relW "r" ["b", "a"] false).Pairwise
      (fun a b => a.Path ≤ b.Path) :=
  claim_C7 worldC6 relW "r" false ["a", "b"] ["b", "a"] (by decide)

/-! ## Filesystem model and `discoverGitRepos` -/

/-- A directory tree as seen by `filepath.WalkDir`: regular files and
directories with an ordered child list.  (Symlinks are not followed by
`WalkDir` and are not modelled.) -/
inductive FSNode where
  | file (name : String)
  | dir (name : String) (children : List FSNode)
  deriving Repr

/-- `d.Name()` of a directory entry. -/
def nodeName : FSNode → String
  | .file n => n
  | .dir n _ => n

/-- `d.IsDir() && d.Name() == ".git"`: the repository marker the walk callback
tests for. -/
def isGitDirNode : FSNode → Bool
  | .file _ => false
  | .dir n _ => n == ".git"

mutual
/-- The walk callback of `discoverGitRepos` applied at a node whose absolute
path (in segments) is `p`: a directory named `.git` records its parent
(`filepath.Dir`) and is skipped (`filepath.SkipDir`); any other directory is
descended into; files contribute nothing.  Walk errors are not modelled (the
walk is over a well-formed in-memory tree). -/
def walkVisit (p : List String) : FSNode → List (List String)
  | .file _ => []
  | .dir n children =>
    if n = ".git" then [p.dropLast]
    else walkList p children

/-- Children are visited in order, each at path `p ++ [its name]`. -/
def walkList (p : List String) : List FSNode → List (List String)
  | [] => []
  | c :: cs => walkVisit (p ++ [nodeName c]) c ++ walkList p cs
end

/-- `discoverGitRepos(root)` from `cmd/git_list.go`: walk the tree rooted at
`root` and collect the parent paths of `.git` directory entries. -/
def discoverGitRepos (root : List String) (t : FSNode) : List (List String) :=
  walkVisit root t

/-- Look up a child by entry name (entry names are unique in a real
directory; see `uniqNames`). -/
def childNamed (x : String) (cs : List FSNode) : Option FSNode :=
  cs.find? (fun c => nodeName c == x)

mutual
/-- The node reached from `t` by following the child names in `s`. -/
def nodeAt : FSNode → List String → Option FSNode
  | t, [] => some t
  | .file _, _ :: _ => none
  | .dir _ cs, x :: xs => nodeAtList cs x xs

/-- Continue a `nodeAt` lookup through the first child named `x`. -/
def nodeAtList : List FSNode → String → List String → Option FSNode
  | [], _, _ => none
  | c :: cs, x, xs => if nodeName c == x then nodeAt c xs else nodeAtList cs x xs
end

/-- The entry at relative path `s` (from `t`) exists and is a directory named
`.git`. -/
def gitDirAt (t : FSNode) (s : List String) : Bool :=
  match nodeAt t s with
  | some node => isGitDirNode node
  | none => false

mutual
/-- Well-formedness of a tree as a filesystem: sibling names are distinct,
recursively. -/
def uniqNames : FSNode → Bool
  | .file _ => true
  | .dir _ cs => decide ((cs.map nodeName).Nodup) && uniqNamesList cs

def uniqNamesList : List FSNode → Bool
  | [] => true
  | c :: cs => uniqNames c && uniqNamesList cs
end

theorem nodeAtList_eq_childNamed (cs : List FSNode) (x : String) (xs : List String) :
    nodeAtList cs x xs = match childNamed x cs with
      | some c => nodeAt c xs
      | none => none := by
  induction cs with
  | nil => rfl
  | cons c cs ih =>
    unfold nodeAtList childNamed
    rw [List.find?_cons]
    by_cases h : nodeName c == x
    · simp [h]
    · simp only [h, if_neg, Bool.false_eq_true, not_false_iff, ite_false]
      exact ih

/-! ## Walk lemmas -/

theorem mem_walkList (p r : List String) (cs : List FSNode) :
    r ∈ walkList p cs ↔ ∃ c ∈ cs, r ∈ walkVisit (p ++ [nodeName c]) c := by
  induction cs with
  | nil => simp [walkList]
  | cons c cs ih =>
    unfold walkList
    rw [List.mem_append, ih]
    constructor
    · rintro (h | ⟨c', hc', h⟩)
      · exact ⟨c, List.mem_cons_self _ _, h⟩
      · exact ⟨c', List.mem_cons_of_mem _ hc', h⟩
    · rintro ⟨c', hc', h⟩
      rcases List.mem_cons.mp hc' with rfl | hc'
      · exact Or.inl h
      · exact Or.inr ⟨c', hc', h⟩

theorem uniqNamesList_mem (cs : List FSNode) (c : FSNode)
    (h : uniqNamesList cs = true) (hc : c ∈ cs) : uniqNames c = true := by
  induction cs with
  | nil => simp at hc
  | cons d cs ih =>
    unfold uniqNamesList at h
    rw [Bool.and_eq_true] at h
    rcases List.mem_cons.mp hc with rfl | hc
    · exact h.1
    · exact ih h.2 hc

theorem uniqNames_dir (n : String) (cs : List FSNode)
    (h : uniqNames (.dir n cs) = true) :
    (cs.map nodeName).Nodup ∧ ∀ c ∈ cs, uniqNames c = true := by
  unfold uniqNames at h
  rw [Bool.and_eq_true, decide_eq_true_eq] at h
  exact ⟨h.1, fun c hc => uniqNamesList_mem cs c h.2 hc⟩

/-- Under distinct sibling names, `childNamed` finds exactly the member with
that name. -/
theorem childNamed_eq_some_iff (x : String) (cs : List FSNode) (c : FSNode)
    (hnd : (cs.map nodeName).Nodup) :
    childNamed x cs = some c ↔ c ∈ cs ∧ nodeName c = x := by
  constructor
  · intro h
    refine ⟨List.mem_of_find?_eq_some h, ?_⟩
    have := List.find?_some h
    simpa using this
  · rintro ⟨hc, rfl⟩
    induction cs with
    | nil => simp at hc
    | cons d cs ih =>
      rw [List.map_cons, List.nodup_cons] at hnd
      unfold childNamed
      rw [List.find?_cons]
      rcases List.mem_cons.mp hc with rfl | hc
      · simp
      · have hne : (nodeName d == nodeName c) = false := by
          rw [beq_eq_false_iff_ne]
          intro he
          exact hnd.1 (he ▸ List.mem_map_of_mem nodeName hc)
        rw [hne]
        exact ih hnd.2 hc

@[simp] theorem gitDirAt_nil (t : FSNode) : gitDirAt t [] = isGitDirNode t := by
  unfold gitDirAt nodeAt
  cases t <;> rfl

@[simp] theorem gitDirAt_file (n : String) (x : String) (xs : List String) :
    gitDirAt (.file n) (x :: xs) = false := by
  unfold gitDirAt nodeAt
  rfl

theorem gitDirAt_dir_cons (n x : String) (cs : List FSNode) (xs : List String) :
    gitDirAt (.dir n cs) (x :: xs) =
      match childNamed x cs with
      | some c => gitDirAt c xs
      | none => false := by
  unfold gitDirAt
  show (match nodeAt (.dir n cs) (x :: xs) with
    | some node => isGitDirNode node
    | none => false) = _
  rw [show nodeAt (.dir n cs) (x :: xs) = nodeAtList cs x xs from rfl,
    nodeAtList_eq_childNamed]
  cases childNamed x cs <;> rfl

/-- Characterization of the walk output: `r` is returned exactly when some
relative path `s` reaches a `.git` directory entry whose every proper prefix
is not itself a `.git` directory (the traversal never descends below one), and
`r` is the parent path of that entry. -/
theorem mem_walkVisit_iff : ∀ (t : FSNode) (p r : List String), uniqNames t = true →
    (r ∈ walkVisit p t ↔
      ∃ s, gitDirAt t s = true ∧ (∀ i < s.length, gitDirAt t (s.take i) = false) ∧
        r = (p ++ s).dropLast)
  | .file n, p, r, _ => by
    constructor
    · intro h
      simp [walkVisit] at h
    · rintro ⟨s, hgit, -, -⟩
      cases s with
      | nil => rw [gitDirAt_nil] at hgit; simp [isGitDirNode] at hgit
      | cons x xs => rw [gitDirAt_file] at hgit; simp at hgit
  | .dir n cs, p, r, hu => by
    obtain ⟨hnd, hcs⟩ := uniqNames_dir n cs hu
    by_cases hn : n = ".git"
    · subst hn
      rw [show walkVisit p (.dir ".git" cs) = [p.dropLast] from by
        unfold walkVisit; rw [if_pos rfl]]
      constructor
      · intro h
        obtain rfl := List.mem_singleton.mp h
        exact ⟨[], by rw [gitDirAt_nil]; simp [isGitDirNode], by simp, by simp⟩
      · rintro ⟨s, hgit, hmin, rfl⟩
        cases s with
        | nil => simp
        | cons x xs =>
          have h0 := hmin 0 (by simp)
          rw [List.take_zero, gitDirAt_nil] at h0
          simp [isGitDirNode] at h0
    · rw [show walkVisit p (.dir n cs) = walkList p cs from by
        unfold walkVisit; rw [if_neg hn]]
      rw [mem_walkList]
      have hnb : (n == ".git") = false := by rwa [beq_eq_false_iff_ne]
      constructor
      · rintro ⟨c, hc, hr⟩
        obtain ⟨xs, hgit, hmin, rfl⟩ :=
          (mem_walkVisit_iff c (p ++ [nodeName c]) r (hcs c hc)).mp hr
        have hfind := (childNamed_eq_some_iff (nodeName c) cs c hnd).mpr ⟨hc, rfl⟩
        refine ⟨nodeName c :: xs, ?_, ?_, ?_⟩
        · rw [gitDirAt_dir_cons, hfind]
          exact hgit
        · intro i hi
          cases i with
          | zero =>
            rw [List.take_zero, gitDirAt_nil]
            simp only [isGitDirNode]
            exact hnb
          | succ j =>
            rw [List.take_succ_cons, gitDirAt_dir_cons, hfind]
            exact hmin j (by simp at hi; omega)
        · rw [List.append_assoc]
          rfl
      · rintro ⟨s, hgit, hmin, rfl⟩
        cases s with
        | nil =>
          rw [gitDirAt_nil] at hgit
          simp only [isGitDirNode] at hgit
          rw [hnb] at hgit
          simp at hgit
        | cons x xs =>
          rw [gitDirAt_dir_cons] at hgit
          cases hcn : childNamed x cs with
          | none => rw [hcn] at hgit; simp at hgit
          | some c =>
            rw [hcn] at hgit
            obtain ⟨hcm, hname⟩ := (childNamed_eq_some_iff x cs c hnd).mp hcn
            refine ⟨c, hcm, ?_⟩
            apply (mem_walkVisit_iff c (p ++ [nodeName c]) _ (hcs c hcm)).mpr
            refine ⟨xs, hgit, ?_, ?_⟩
            · intro j hj
              have hstep := hmin (j + 1) (by simp; omega)
              rw [List.take_succ_cons, gitDirAt_dir_cons, hcn] at hstep
              exact hstep
            · rw [hname, List.append_assoc]
              rfl
  termination_by t => sizeOf t
  decreasing_by
  · have := List.sizeOf_lt_of_mem hc
    simp
    omega
  · have := List.sizeOf_lt_of_mem hcm
    simp
    omega

/-! ## Claim C5 -/

/-- C5: `discover` returns exactly the parent paths of the traversal-reachable
`.git` directory entries (the root's parent path when the root itself is named
`.git`, the root itself when it directly contains `.git`), and never any path
lying strictly inside a `.git` directory. -/
theorem claim_C5 (t : FSNode) (p : List String) (hu : uniqNames t = true) :
    (∀ r, r ∈ discoverGitRepos p t ↔
      ∃ s, gitDirAt t s = true ∧ (∀ i < s.length, gitDirAt t (s.take i) = false) ∧
        r = (p ++ s).dropLast) ∧
    (∀ r ∈ discoverGitRepos p t,
      ¬ ∃ q rest, rest ≠ [] ∧ gitDirAt t q = true ∧ r = p ++ q ++ rest) := by
  have hchar := fun r => mem_walkVisit_iff t p r hu
  refine ⟨hchar, ?_⟩
  intro r hr
  obtain ⟨s, hgit, hmin, rfl⟩ := (hchar r).mp hr
  rintro ⟨q, rest, hne, hq, heq⟩
  have hrest : 0 < rest.length := List.length_pos.mpr hne
  cases s with
  | nil =>
    have hlen := congrArg List.length heq
    simp [List.length_dropLast] at hlen
    omega
  | cons x xs =>
    rw [List.dropLast_append_cons] at heq
    rw [List.append_assoc] at heq
    have heq2 : (x :: xs).dropLast = q ++ rest := List.append_cancel_left heq
    have hlen2 := congrArg List.length heq2
    simp [List.length_dropLast] at hlen2
    have hql : q.length ≤ xs.length := by omega
    have h1 : (x :: xs).take q.length = q := by
      have h2 : ((x :: xs).dropLast).take q.length = q := by
        rw [heq2]
        exact List.take_left q rest
      rw [List.dropLast_eq_take, List.take_take] at h2
      rw [← h2]
      congr 1
      simp
    have := hmin q.length (by simp; all_goals omega)
    rw [h1] at this
    rw [this] at hq
    simp at hq

def t5 : FSNode :=
  .dir "root" [.dir ".git" [], .dir "sub" [.dir ".git" []], .file "f"]

theorem claim_C5_witness :
    uniqNames t5 = true ∧
    (["root", "sub"] ∈ discoverGitRepos ["root"] t5 ↔
      ∃ s, gitDirAt t5 s = true ∧ (∀ i < s.length, gitDirAt t5 (s.take i) = false) ∧
        ["root", "sub"] = (["root"] ++ s).dropLast) := by
  have hu : uniqNames t5 = true := by decide
  exact ⟨hu, (claim_C5 t5 ["root"] hu).1 ["root", "sub"]⟩

/-! ## Claim C9 -/

/-- Any output of the walk is either the parent of a `.git` directory node at
the top, or at least as deep as the visit path. -/
theorem mem_walkVisit_cases : ∀ (t : FSNode) (p r : List String), r ∈ walkVisit p t →
    (isGitDirNode t = true ∧ r = p.dropLast) ∨ p.length ≤ r.length
  | .file _, p, r, h => by simp [walkVisit] at h
  | .dir n cs, p, r, h => by
    by_cases hn : n = ".git"
    · subst hn
      rw [show walkVisit p (.dir ".git" cs) = [p.dropLast] from by
        unfold walkVisit; rw [if_pos rfl]] at h
      obtain rfl := List.mem_singleton.mp h
      exact Or.inl ⟨by simp [isGitDirNode], rfl⟩
    · rw [show walkVisit p (.dir n cs) = walkList p cs from by
        unfold walkVisit; rw [if_neg hn]] at h
      obtain ⟨c, hc, hr⟩ := (mem_walkList p r cs).mp h
      rcases mem_walkVisit_cases c (p ++ [nodeName c]) r hr with ⟨hgit, rfl⟩ | hlen
      · right
        simp
      · right
        simp at hlen
        omega
  termination_by t => sizeOf t
  decreasing_by
  · have := List.sizeOf_lt_of_mem hc
    simp
    all_goals omega

/-- A regular file never contributes to the walk output. -/
theorem walkList_file_skip (p : List String) (m : String) (b a : List FSNode) :
    walkList p (b ++ .file m :: a) = walkList p (b ++ a) := by
  have e : ∀ (c : FSNode) (cs : List FSNode),
      walkList p (c :: cs) = walkVisit (p ++ [nodeName c]) c ++ walkList p cs :=
    fun c cs => rfl
  induction b with
  | nil =>
    rw [List.nil_append, List.nil_append, e]
    rw [show walkVisit (p ++ [nodeName (FSNode.file m)]) (.file m) = [] from rfl,
      List.nil_append]
  | cons c b ih =>
    rw [List.cons_append, List.cons_append, e, e, ih]

/-- C9: a directory entry named `.git` that is a regular file (linked worktree
or submodule layout) does not mark its directory as a repository and does not
stop the traversal of its siblings: the output is exactly that of the same
tree without the file, and the containing directory itself is not returned. -/
theorem claim_C9 (p : List String) (n : String) (b a : List FSNode)
    (hn : n ≠ ".git") (hb : ∀ c ∈ b ++ a, isGitDirNode c = false) :
    discoverGitRepos p (.dir n (b ++ .file ".git" :: a)) =
      discoverGitRepos p (.dir n (b ++ a)) ∧
    p ∉ discoverGitRepos p (.dir n (b ++ .file ".git" :: a)) := by
  have hwalk : ∀ cs, walkVisit p (.dir n cs) = walkList p cs := fun cs => by
    unfold walkVisit; rw [if_neg hn]
  constructor
  · show walkVisit p _ = walkVisit p _
    rw [hwalk, hwalk]
    exact walkList_file_skip p ".git" b a
  · intro hmem
    rw [show discoverGitRepos p (.dir n (b ++ .file ".git" :: a)) =
      walkList p (b ++ .file ".git" :: a) from hwalk _] at hmem
    obtain ⟨c, hc, hr⟩ := (mem_walkList p p _).mp hmem
    rcases mem_walkVisit_cases c (p ++ [nodeName c]) p hr with ⟨hgit, _⟩ | hlen
    · rcases List.mem_append.mp hc with hcb | hca
      · rw [hb c (List.mem_append_left a hcb)] at hgit
        simp at hgit
      · rcases List.mem_cons.mp hca with rfl | hca
        · simp [isGitDirNode] at hgit
        · rw [hb c (List.mem_append_right b hca)] at hgit
          simp at hgit
    · simp at hlen

theorem claim_C9_witness :
    discoverGitRepos ["r", "w"]
        (.dir "w" ([.dir "sub" [.dir ".git" []]] ++ .file ".git" :: [.file "x"])) =
      discoverGitRepos ["r", "w"] (.dir "w" ([.dir "sub" [.dir ".git" []]] ++ [.file "x"])) ∧
    ["r", "w"] ∉ discoverGitRepos ["r", "w"]
        (.dir "w" ([.dir "sub" [.dir ".git" []]] ++ .file ".git" :: [.file "x"])) :=
  claim_C9 ["r", "w"] "w" [.dir "sub" [.dir ".git" []]] [.file "x"]
    (by decide) (by decide)
